import Mathlib

/-!
Verification of the x-cli core: the OAuth 1.0a request signer (auth.py)
and the watch-mode polling loop (watch.py).

Python strings are modelled as their lists of UTF-8 bytes (`Bytes`); for
ASCII data this is the list of character codes, and lexicographic order on
UTF-8 bytes coincides with Python's code-point string order.  The signer's
random nonce, timestamp and HMAC-SHA1 signature value are inputs of the
model (the claims under study do not depend on the HMAC computation
itself).  The watch loop is modelled as a deterministic function of a
script of poll results: one `PollResult` per target per pass.
-/

namespace XCli

/-- A Python `str`, as its list of UTF-8 bytes (each < 256). -/
abbrev Bytes := List Nat

/-- Bytes of an ASCII string literal (code points = UTF-8 bytes). -/
def bytesOfAscii (s : String) : Bytes :=
  s.data.map Char.toNat

/-- RFC 3986 unreserved bytes: ALPHA / DIGIT / '-' / '.' / '_' / '~'.
This is exactly the set `urllib.parse.quote` leaves intact when
`safe=""`. -/
def isUnreservedByte (b : Nat) : Bool :=
  (65 ≤ b && b ≤ 90) || (97 ≤ b && b ≤ 122) || (48 ≤ b && b ≤ 57) ||
    b == 45 || b == 46 || b == 95 || b == 126

/-- Uppercase hex digit byte for a nibble (0-15). -/
def hexDigitByte (n : Nat) : Nat :=
  if n < 10 then 48 + n else 55 + n

/-- One byte of `urllib.parse.quote(s, safe="")`: unreserved bytes pass
through, every other byte becomes `%XX` (uppercase hex). -/
def percentEncodeByte (b : Nat) : Bytes :=
  if isUnreservedByte b then [b] else [37, hexDigitByte (b / 16), hexDigitByte (b % 16)]

/-- `_percent_encode(s) = urllib.parse.quote(s, safe="")` (auth.py line 53). -/
def percent_encode (s : Bytes) : Bytes :=
  (s.map percentEncodeByte).flatten

/-- Strict lexicographic order on byte strings: Python `str.__lt__`
(UTF-8 byte order equals code-point order). -/
def ltBytes : Bytes → Bytes → Bool
  | [], [] => false
  | [], _ :: _ => true
  | _ :: _, [] => false
  | a :: as, b :: bs => if a < b then true else if a = b then ltBytes as bs else false

/-- Non-strict lexicographic order on byte strings. -/
def leBytes (a b : Bytes) : Bool :=
  ltBytes a b || a = b

/-- Python tuple comparison `(k1, v1) <= (k2, v2)` on pairs of strings. -/
def pairLe (p q : Bytes × Bytes) : Bool :=
  ltBytes p.1 q.1 || (p.1 = q.1 && leBytes p.2 q.2)

/-- Insert into a list sorted by `le`. -/
def insertLe (le : α → α → Bool) (p : α) : List α → List α
  | [] => [p]
  | q :: qs => if le p q then p :: q :: qs else q :: insertLe le p qs

/-- Insertion sort by `le`.  For the antisymmetric orders used here this
computes the same list as Python's `sorted`. -/
def sortLe (le : α → α → Bool) : List α → List α
  | [] => []
  | p :: ps => insertLe le p (sortLe le ps)

/-- `sep.join(xs)` on byte strings. -/
def joinSep (sep : Bytes) : List Bytes → Bytes
  | [] => []
  | [x] => x
  | x :: y :: rest => x ++ sep ++ joinSep sep (y :: rest)

/-- Python dict assignment `d[k] = v`: replace in place if the key is
present (keeping its position), else append.  Dicts are modelled as
association lists in insertion order with unique keys. -/
def dictSet (d : List (Bytes × Bytes)) (k v : Bytes) : List (Bytes × Bytes) :=
  match d with
  | [] => [(k, v)]
  | (k1, v1) :: rest => if k1 = k then (k, v) :: rest else (k1, v1) :: dictSet rest k v

/-- Python `d.update(entries)`, entries applied in order. -/
def dictUpdate (d entries : List (Bytes × Bytes)) : List (Bytes × Bytes) :=
  entries.foldl (fun acc p => dictSet acc p.1 p.2) d

/-- Split a byte string on a separator byte, dropping empty chunks
(as `urllib.parse.parse_qsl` does for `&&`). -/
def splitOnByte (sep : Nat) : Bytes → List Bytes
  | [] => []
  | b :: rest =>
    match splitOnByte sep rest with
    | [] => if b = sep then [] else [[b]]
    | chunk :: chunks =>
      if b = sep then
        [] :: chunk :: chunks
      else
        (b :: chunk) :: chunks

/-- Variant of `splitOnByte` that keeps empty chunks, used to split each
`name=value` piece at the first `=`. -/
def splitFirstAt (sep : Nat) : Bytes → Option (Bytes × Bytes)
  | [] => none
  | b :: rest =>
    if b = sep then some ([], rest)
    else
      match splitFirstAt sep rest with
      | none => none
      | some (pre, post) => some (b :: pre, post)

def isHexDigitByte (b : Nat) : Bool :=
  (48 ≤ b && b ≤ 57) || (65 ≤ b && b ≤ 70) || (97 ≤ b && b ≤ 102)

def hexVal (b : Nat) : Nat :=
  if b ≤ 57 then b - 48 else if b ≤ 70 then b - 55 else b - 87

/-- `urllib.parse.unquote` on bytes: decode `%XX` escapes, leaving
malformed escapes literal. -/
def unquoteBytes : Bytes → Bytes
  | 37 :: h :: l :: rest =>
    if isHexDigitByte h && isHexDigitByte l then
      (16 * hexVal h + hexVal l) :: unquoteBytes rest
    else
      37 :: unquoteBytes (h :: l :: rest)
  | b :: rest => b :: unquoteBytes rest
  | [] => []

/-- `unquote_plus`: `+` becomes space, then `%XX` escapes are decoded. -/
def unquotePlus (s : Bytes) : Bytes :=
  unquoteBytes (s.map fun b => if b = 43 then 32 else b)

/-- The (name, value) pairs of `parse_qsl(query, keep_blank_values=True)`:
split on `&`, split each non-empty chunk at the first `=` (a chunk with no
`=` keeps a blank value), unquote-plus names and values. -/
def parseQsPairs (q : Bytes) : List (Bytes × Bytes) :=
  (splitOnByte 38 q).map fun chunk =>
    match splitFirstAt 61 chunk with
    | some (n, v) => (unquotePlus n, unquotePlus v)
    | none => (unquotePlus chunk, [])

/-- Collapse repeated keys to their first occurrence (first value kept),
skipping keys already seen. -/
def dedupeKeysAux (seen : List Bytes) : List (Bytes × Bytes) → List (Bytes × Bytes)
  | [] => []
  | (k, v) :: rest =>
    if k ∈ seen then dedupeKeysAux seen rest
    else (k, v) :: dedupeKeysAux (k :: seen) rest

/-- Collapse repeated keys to their first occurrence (first value kept):
`parse_qs` groups values per key in first-occurrence order and the signer
takes `v[0]` for each key. -/
def dedupeKeys (l : List (Bytes × Bytes)) : List (Bytes × Bytes) :=
  dedupeKeysAux [] l

/-- Result of `urllib.parse.urlparse`: the components the signer reads.
`query` is the part after `?` (empty when absent). -/
structure Url where
  scheme : Bytes
  netloc : Bytes
  path : Bytes
  query : Bytes

structure Credentials where
  api_key : Bytes
  api_secret : Bytes
  access_token : Bytes
  access_token_secret : Bytes
  bearer_token : Bytes

/-- The deterministic inputs of one `generate_oauth_header` call: the
random nonce and the clock reading are inputs of the model. -/
structure SignerInputs where
  method : Bytes
  url : Url
  creds : Credentials
  params : List (Bytes × Bytes)
  nonce : Bytes
  timestamp : Bytes

/-- ASCII upper-casing of the HTTP method (`method.upper()`). -/
def upperBytes (s : Bytes) : Bytes :=
  s.map fun b => if 97 ≤ b && b ≤ 122 then b - 32 else b

/-- The oauth parameter dict built at auth.py lines 64-71, in insertion
order. -/
def oauthParams (i : SignerInputs) : List (Bytes × Bytes) :=
  [ (bytesOfAscii "oauth_consumer_key", i.creds.api_key),
    (bytesOfAscii "oauth_nonce", i.nonce),
    (bytesOfAscii "oauth_signature_method", bytesOfAscii "HMAC-SHA1"),
    (bytesOfAscii "oauth_timestamp", i.timestamp),
    (bytesOfAscii "oauth_token", i.creds.access_token),
    (bytesOfAscii "oauth_version", bytesOfAscii "1.0") ]

/-- `all_params`: oauth params, updated with the extra params, updated
with the first value of each query-string key (auth.py lines 74-83). -/
def allParams (i : SignerInputs) : List (Bytes × Bytes) :=
  dictUpdate (dictUpdate (oauthParams i) i.params) (dedupeKeys (parseQsPairs i.url.query))

/-- `sorted(all_params.items())` — Python sorts the raw (unencoded)
key/value tuples. -/
def sorted_params (i : SignerInputs) : List (Bytes × Bytes) :=
  sortLe pairLe (allParams i)

/-- `param_string` (auth.py line 87). -/
def param_string (i : SignerInputs) : Bytes :=
  joinSep [38]
    ((sorted_params i).map fun p => percent_encode p.1 ++ [61] ++ percent_encode p.2)

/-- What step 4 of the spec describes instead: sort by percent-encoded
key, ties by percent-encoded value.  Modelled from the spec for
comparison with `sorted_params`. -/
def sortedParamsSpec (i : SignerInputs) : List (Bytes × Bytes) :=
  sortLe (fun p q => pairLe (percent_encode p.1, percent_encode p.2)
    (percent_encode q.1, percent_encode q.2)) (allParams i)

/-- The parameter string the spec's sorting rule would produce.
Modelled from the spec for comparison with `param_string`. -/
def paramStringSpec (i : SignerInputs) : Bytes :=
  joinSep [38]
    ((sortedParamsSpec i).map fun p => percent_encode p.1 ++ [61] ++ percent_encode p.2)

/-- `base_url = f"{parsed.scheme}://{parsed.netloc}{parsed.path}"`
(auth.py line 90): the query string is stripped. -/
def base_url (i : SignerInputs) : Bytes :=
  i.url.scheme ++ bytesOfAscii "://" ++ i.url.netloc ++ i.url.path

/-- The signature base string (auth.py line 93); 38 is `&`. -/
def base_string (i : SignerInputs) : Bytes :=
  upperBytes i.method ++ [38] ++ percent_encode (base_url i) ++ [38] ++
    percent_encode (param_string i)

/-- The signing key (auth.py line 96). -/
def signing_key (i : SignerInputs) : Bytes :=
  percent_encode i.creds.api_secret ++ [38] ++ percent_encode i.creds.access_token_secret

/-- `oauth_params` after `oauth_params["oauth_signature"] = signature`
(auth.py line 103); the HMAC output is a model input `sig`. -/
def oauthParamsFinal (i : SignerInputs) (sig : Bytes) : List (Bytes × Bytes) :=
  dictSet (oauthParams i) (bytesOfAscii "oauth_signature") sig

/-- The emitted Authorization header (auth.py lines 106-110): `OAuth `
then comma-space-joined encoded pairs of the oauth params only, sorted.
34 is the double quote, 61 is `=`. -/
def headerBytes (i : SignerInputs) (sig : Bytes) : Bytes :=
  bytesOfAscii "OAuth " ++
    joinSep (bytesOfAscii ", ")
      ((sortLe pairLe (oauthParamsFinal i sig)).map fun p =>
        percent_encode p.1 ++ [61, 34] ++ percent_encode p.2 ++ [34])

/-! ## Watch mode (watch.py) -/

/-- A tweet as the loop reads it: `id` (tweet IDs are decimal strings,
modelled numerically so the forward-motion invariant can be stated),
`text`, and the optional long-form `note_tweet.text`. -/
structure Tweet where
  id : Nat
  text : String
  noteText : Option String
deriving DecidableEq

/-- A watched account (`WatchTarget`, watch.py lines 20-26). -/
structure Target where
  username : String
  user_id : String
  last_seen_id : Option Nat
deriving DecidableEq

/-- Outcome of one `client.get_timeline` call, supplied by the script:
a batch (newest-first), an HTTP 429 (`RateLimitError` with its
`reset_at` header and the clock reading `now = int(time.time())` at
handling), or any other request failure (`RuntimeError`). -/
inductive PollResult where
  | ok (tweets : List Tweet)
  | rateLimited (resetAt : String) (now : Int)
  | failed
deriving DecidableEq

/-- Observable session state: the `WatchStats` counters, plus the
rendered items (username and tweet id, in output order), the sleep
durations issued, and whether the summary was printed / the loop
returned. -/
structure LoopState where
  tweets_seen : Nat
  polls : Nat
  per_user : List (String × Nat)
  rendered : List (String × Nat)
  sleeps : List Int
  summary : Bool
  stopped : Bool
deriving DecidableEq

def initState : LoopState :=
  { tweets_seen := 0, polls := 0, per_user := [], rendered := [],
    sleeps := [], summary := false, stopped := false }

/-- ASCII `str.lower()` (the texts and keywords under study are ASCII). -/
def lowerPy (s : String) : String :=
  String.mk (s.data.map Char.toLower)

/-- Python prefix test on lists (`needle` a prefix of `hay`). -/
def isPrefixB [DecidableEq α] : List α → List α → Bool
  | [], _ => true
  | _ :: _, [] => false
  | a :: as, b :: bs => a = b && isPrefixB as bs

/-- Python substring test `needle in hay` on lists. -/
def containsSeg [DecidableEq α] (needle : List α) : List α → Bool
  | [] => needle = []
  | b :: bs => isPrefixB needle (b :: bs) || containsSeg needle bs

/-- `needle` occurs contiguously inside `hay`. -/
def SegIn (needle hay : List α) : Prop :=
  ∃ s t, hay = s ++ needle ++ t

/-- `_matches_filters` (watch.py lines 38-43). -/
def matches_filters (text : String) (filters : List String) : Bool :=
  if filters = [] then true
  else filters.any fun f => containsSeg (lowerPy f).data (lowerPy text).data

/-- The display text of a tweet (watch.py lines 135-138): the long-form
body when present and non-empty, else the standard body. -/
def effectiveText (t : Tweet) : String :=
  match t.noteText with
  | some s => if s = "" then t.text else s
  | none => t.text

/-- Python `int(s)` on a string: optional surrounding whitespace,
optional sign, then a non-empty digit run; `none` models `ValueError`. -/
def digitsVal : List Char → Option Nat
  | [] => none
  | [c] => if c.isDigit then some (c.toNat - 48) else none
  | c :: rest =>
    if c.isDigit then
      match digitsVal rest with
      | some n => some ((c.toNat - 48) * 10 ^ rest.length + n)
      | none => none
    else none

def isSpaceChar (c : Char) : Bool :=
  c = ' ' || c = '\t' || c = '\n' || c = '\r' || c = '\x0b' || c = '\x0c'

/-- Strip leading and trailing whitespace, as `int()` does before
parsing. -/
def trimChars (l : List Char) : List Char :=
  ((l.dropWhile isSpaceChar).reverse.dropWhile isSpaceChar).reverse

def parseIntPy (s : String) : Option Int :=
  match trimChars s.data with
  | '-' :: ds => (digitsVal ds).map fun n => -(n : Int)
  | '+' :: ds => (digitsVal ds).map fun n => (n : Int)
  | ds => (digitsVal ds).map fun n => (n : Int)

/-- The rate-limit wait (watch.py lines 115-119):
`max(0, int(reset_at) - now) + 5`, or 60 when `int(reset_at)` raises. -/
def rlWait (resetAt : String) (now : Int) : Int :=
  match parseIntPy resetAt with
  | some r => max 0 (r - now) + 5
  | none => 60

/-- `if max_tweets and stats.tweets_seen >= max_tweets` (line 156):
`None` and `0` are both falsy. -/
def budgetHit (maxTweets : Option Nat) (seen : Nat) : Bool :=
  match maxTweets with
  | none => false
  | some m => if m = 0 then false else decide (m ≤ seen)

def perUserGet : List (String × Nat) → String → Nat
  | [], _ => 0
  | (k, n) :: rest, u => if k = u then n else perUserGet rest u

def perUserSet : List (String × Nat) → String → Nat → List (String × Nat)
  | [], u, n => [(u, n)]
  | (k, m) :: rest, u, n => if k = u then (u, n) :: rest else (k, m) :: perUserSet rest u n

/-- The inner `for tweet in reversed(tweets)` body (watch.py lines
134-159), over the already-reversed batch.  Returns the updated state
and whether the budget `return` fired (true aborts the batch, the pass
and the loop). -/
def processItems (filters : List String) (maxTweets : Option Nat) (username : String) :
    List Tweet → LoopState → LoopState × Bool
  | [], st => (st, false)
  | t :: rest, st =>
    if matches_filters (effectiveText t) filters then
      let st1 :=
        { st with
          rendered := st.rendered ++ [(username, t.id)],
          tweets_seen := st.tweets_seen + 1,
          per_user := perUserSet st.per_user username (perUserGet st.per_user username + 1) }
      if budgetHit maxTweets st1.tweets_seen then
        ({ st1 with summary := true, stopped := true }, true)
      else
        processItems filters maxTweets username rest st1
    else
      processItems filters maxTweets username rest st

/-- Handling of one target within a pass (watch.py lines 108-162):
rate limit sleeps and leaves the cursor alone; other failures and empty
batches are skipped; a non-empty batch is processed oldest-first and
then, unless the budget fired mid-batch, the cursor becomes the id of
the newest (first) element. -/
def stepTarget (filters : List String) (maxTweets : Option Nat) (tg : Target)
    (res : PollResult) (st : LoopState) : Target × LoopState × Bool :=
  match res with
  | .rateLimited resetAt now =>
    (tg, { st with sleeps := st.sleeps ++ [rlWait resetAt now] }, false)
  | .failed => (tg, st, false)
  | .ok [] => (tg, st, false)
  | .ok (t0 :: rest) =>
    let pr := processItems filters maxTweets tg.username ((t0 :: rest).reverse) st
    if pr.2 then (tg, pr.1, true)
    else ({ tg with last_seen_id := some t0.id }, pr.1, false)

/-- One pass over the targets paired with their poll results; a budget
stop drops the remaining targets of the pass unchanged. -/
def stepPass (filters : List String) (maxTweets : Option Nat) :
    List (Target × PollResult) → LoopState → List Target × LoopState × Bool
  | [], st => ([], st, false)
  | (tg, res) :: rest, st =>
    let r1 := stepTarget filters maxTweets tg res st
    if r1.2.2 then (r1.1 :: rest.map Prod.fst, r1.2.1, true)
    else
      let r2 := stepPass filters maxTweets rest r1.2.1
      (r1.1 :: r2.1, r2.2.1, r2.2.2)

/-- The `while True` loop (watch.py lines 106-165) run against a finite
script: each pass consumes one list of poll results (one per target),
then increments `polls` and sleeps for the interval; the script running
out models the external interrupt. -/
def watchRun (filters : List String) (maxTweets : Option Nat) (interval : Int) :
    List (List PollResult) → List Target → LoopState → List Target × LoopState
  | [], tgs, st => (tgs, st)
  | results :: passes, tgs, st =>
    let r := stepPass filters maxTweets (tgs.zip results) st
    if r.2.2 then (r.1, r.2.1)
    else
      watchRun filters maxTweets interval passes r.1
        { r.2.1 with polls := r.2.1.polls + 1, sleeps := r.2.1.sleeps ++ [interval] }

/-- `sum(per_user.values())`. -/
def sumCounts (d : List (String × Nat)) : Nat :=
  (d.map Prod.snd).sum

/-- `a` is a cursor value no newer than `b`: whenever `a` holds an id,
`b` holds one at least as large. -/
def cursorLe (a b : Option Nat) : Prop :=
  ∀ c, a = some c → ∃ d, b = some d ∧ c ≤ d

/-- The session invariant behind the item budget (claim C4): rendered
items and `tweets_seen` agree, a stopped loop has rendered exactly `n`
items and printed the summary, a running loop is still under budget. -/
def BudgetInv (n : Nat) (st : LoopState) : Prop :=
  st.rendered.length = st.tweets_seen ∧
    (st.stopped = true → st.tweets_seen = n ∧ st.summary = true) ∧
    (st.stopped = false → st.tweets_seen < n)

/-- Concrete credential values for counterexample / witness inputs. -/
def credsX : Credentials :=
  { api_key := bytesOfAscii "k", api_secret := bytesOfAscii "s",
    access_token := bytesOfAscii "t", access_token_secret := bytesOfAscii "ts",
    bearer_token := bytesOfAscii "b" }

/-- A signer call whose extra parameter keys `-` and `/` order
differently raw (`-` before `/`) and percent-encoded (`%2F` before
`-`). -/
def iC2 : SignerInputs :=
  { method := bytesOfAscii "GET",
    url := { scheme := bytesOfAscii "https", netloc := bytesOfAscii "api.x.com",
             path := bytesOfAscii "/2/tweets", query := [] },
    creds := credsX,
    params := [(bytesOfAscii "-", bytesOfAscii "v1"), (bytesOfAscii "/", bytesOfAscii "v2")],
    nonce := bytesOfAscii "n", timestamp := bytesOfAscii "1" }

/-- The spec's scenario call: a GET on
`https://api.example.com/2/tweets/123?tweet.fields=created_at`. -/
def iC3 : SignerInputs :=
  { method := bytesOfAscii "GET",
    url := { scheme := bytesOfAscii "https", netloc := bytesOfAscii "api.example.com",
             path := bytesOfAscii "/2/tweets/123", query := bytesOfAscii "tweet.fields=created_at" },
    creds := credsX,
    params := [],
    nonce := bytesOfAscii "n", timestamp := bytesOfAscii "1" }

end XCli

/-! ## Order and sorting lemmas -/

namespace XCli

theorem ltBytes_trans : ∀ a b c : Bytes, ltBytes a b = true → ltBytes b c = true →
    ltBytes a c = true := by
  intro a
  induction a with
  | nil =>
    intro b c hab hbc
    cases b with
    | nil => simp [ltBytes] at hab
    | cons y ys =>
      cases c with
      | nil => simp [ltBytes] at hbc
      | cons z zs => simp [ltBytes]
  | cons x xs ih =>
    intro b c hab hbc
    cases b with
    | nil => simp [ltBytes] at hab
    | cons y ys =>
      cases c with
      | nil => simp [ltBytes] at hbc
      | cons z zs =>
        simp only [ltBytes] at hab hbc ⊢
        split_ifs at hab hbc ⊢ with h1 h2 h3 h4 h5 h6 <;>
          first
            | rfl
            | omega
            | (exact ih ys zs hab hbc)

theorem ltBytes_total : ∀ a b : Bytes, ltBytes a b = true ∨ a = b ∨ ltBytes b a = true := by
  intro a
  induction a with
  | nil =>
    intro b
    cases b with
    | nil => exact Or.inr (Or.inl rfl)
    | cons y ys => exact Or.inl (by simp [ltBytes])
  | cons x xs ih =>
    intro b
    cases b with
    | nil => exact Or.inr (Or.inr (by simp [ltBytes]))
    | cons y ys =>
      rcases Nat.lt_trichotomy x y with hxy | hxy | hxy
      · exact Or.inl (by simp [ltBytes, hxy])
      · subst hxy
        rcases ih ys with h | h | h
        · exact Or.inl (by simp [ltBytes, h])
        · exact Or.inr (Or.inl (by rw [h]))
        · exact Or.inr (Or.inr (by simp [ltBytes, h]))
      · refine Or.inr (Or.inr ?_)
        simp [ltBytes, hxy, Nat.lt_asymm hxy, Nat.ne_of_gt hxy]

theorem pairLe_total (p q : Bytes × Bytes) : pairLe p q = true ∨ pairLe q p = true := by
  rcases ltBytes_total p.1 q.1 with h | h | h
  · exact Or.inl (by simp [pairLe, h])
  · rcases ltBytes_total p.2 q.2 with h2 | h2 | h2
    · exact Or.inl (by simp [pairLe, h, leBytes, h2])
    · exact Or.inl (by simp [pairLe, h, leBytes, h2])
    · exact Or.inr (by simp [pairLe, h.symm, leBytes, h2])
  · exact Or.inr (by simp [pairLe, h])

theorem pairLe_trans (p q r : Bytes × Bytes) (hpq : pairLe p q = true)
    (hqr : pairLe q r = true) : pairLe p r = true := by
  simp only [pairLe, Bool.or_eq_true, Bool.and_eq_true, decide_eq_true_eq] at hpq hqr ⊢
  rcases hpq with h1 | ⟨h1, h1v⟩ <;> rcases hqr with h2 | ⟨h2, h2v⟩
  · exact Or.inl (ltBytes_trans _ _ _ h1 h2)
  · exact Or.inl (h2 ▸ h1)
  · exact Or.inl (h1 ▸ h2)
  · refine Or.inr ⟨h1.trans h2, ?_⟩
    simp only [leBytes, Bool.or_eq_true, decide_eq_true_eq] at h1v h2v ⊢
    rcases h1v with h1v | h1v <;> rcases h2v with h2v | h2v
    · exact Or.inl (ltBytes_trans _ _ _ h1v h2v)
    · exact Or.inl (h2v ▸ h1v)
    · exact Or.inl (h1v ▸ h2v)
    · exact Or.inr (h1v.trans h2v)

theorem perm_insertLe (le : α → α → Bool) (p : α) :
    ∀ l : List α, List.Perm (insertLe le p l) (p :: l) := by
  intro l
  induction l with
  | nil => simp [insertLe]
  | cons q qs ih =>
    by_cases h : le p q = true
    · simp [insertLe, h]
    · simp only [insertLe, h, if_false]
      exact (ih.cons q).trans (List.Perm.swap p q qs)

theorem mem_insertLe (le : α → α → Bool) (p x : α) (l : List α) :
    x ∈ insertLe le p l ↔ x = p ∨ x ∈ l := by
  rw [(perm_insertLe le p l).mem_iff]
  simp

theorem pairwise_insertLe (le : α → α → Bool)
    (htot : ∀ a b, le a b = true ∨ le b a = true)
    (htrans : ∀ a b c, le a b = true → le b c = true → le a c = true)
    (p : α) : ∀ l : List α, l.Pairwise (fun a b => le a b = true) →
      (insertLe le p l).Pairwise (fun a b => le a b = true) := by
  intro l
  induction l with
  | nil => simp [insertLe]
  | cons q qs ih =>
    intro hl
    rw [List.pairwise_cons] at hl
    obtain ⟨hq, hqs⟩ := hl
    by_cases h : le p q = true
    · simp only [insertLe, h, if_true]
      refine List.Pairwise.cons ?_ (List.Pairwise.cons hq hqs)
      intro x hx
      rcases List.mem_cons.mp hx with rfl | hx
      · exact h
      · exact htrans _ _ _ h (hq x hx)
    · simp only [insertLe, h, if_false]
      refine List.Pairwise.cons ?_ (ih hqs)
      intro x hx
      rcases (mem_insertLe le p x qs).mp hx with rfl | hx
      · rcases htot x q with h2 | h2
        · exact absurd h2 h
        · exact h2
      · exact hq x hx

theorem percent_encode_cons (b : Nat) (s : Bytes) :
    percent_encode (b :: s) = percentEncodeByte b ++ percent_encode s := by
  simp [percent_encode]

theorem percent_encode_of_unreserved :
    ∀ s : Bytes, (∀ b ∈ s, isUnreservedByte b = true) → percent_encode s = s := by
  intro s hs
  induction s with
  | nil => rfl
  | cons b bs ih =>
    have hb : isUnreservedByte b = true := hs b (List.mem_cons_self b bs)
    rw [percent_encode_cons, percentEncodeByte, if_pos hb,
      ih fun x hx => hs x (List.mem_cons_of_mem b hx)]
    rfl

theorem dictSet_mem_self (d : List (Bytes × Bytes)) (k v : Bytes) :
    (k, v) ∈ dictSet d k v := by
  induction d with
  | nil => simp [dictSet]
  | cons p rest ih =>
    obtain ⟨k1, v1⟩ := p
    by_cases h : k1 = k <;> simp [dictSet, h, ih]

theorem dictSet_mem_of_ne (d : List (Bytes × Bytes)) (k v k2 v2 : Bytes)
    (h : k ≠ k2) (hm : (k, v) ∈ d) : (k, v) ∈ dictSet d k2 v2 := by
  induction d with
  | nil => simp at hm
  | cons p rest ih =>
    obtain ⟨k1, v1⟩ := p
    rcases List.mem_cons.mp hm with he | hm2
    · obtain ⟨rfl, rfl⟩ := Prod.mk.injEq k1 v1 k v ▸ he.symm
      simp only [dictSet, if_neg h]
      exact List.mem_cons_self _ _
    · by_cases h12 : k1 = k2
      · simp only [dictSet, if_pos h12]
        exact List.mem_cons_of_mem _ hm2
      · simp only [dictSet, if_neg h12]
        exact List.mem_cons_of_mem _ (ih hm2)

theorem mem_dictUpdate_of_fresh :
    ∀ (entries d : List (Bytes × Bytes)) (k v : Bytes),
      (∀ q ∈ entries, q.1 ≠ k) → (k, v) ∈ d → (k, v) ∈ dictUpdate d entries := by
  intro entries
  induction entries with
  | nil => intro d k v _ hm; exact hm
  | cons q rest ih =>
    intro d k v hfresh hm
    obtain ⟨k2, v2⟩ := q
    have hne : k ≠ k2 := fun he => hfresh (k2, v2) (List.mem_cons_self _ _) (by simp [he.symm])
    exact ih (dictSet d k2 v2) k v (fun q hq => hfresh q (List.mem_cons_of_mem _ hq))
      (dictSet_mem_of_ne d k v k2 v2 hne hm)

theorem mem_dictUpdate_of_keys_distinct :
    ∀ (entries d : List (Bytes × Bytes)),
      entries.Pairwise (fun p q => p.1 ≠ q.1) →
      ∀ p ∈ entries, p ∈ dictUpdate d entries := by
  intro entries
  induction entries with
  | nil => intro d _ p hp; simp at hp
  | cons e rest ih =>
    intro d hdist p hp
    obtain ⟨k, v⟩ := e
    rw [List.pairwise_cons] at hdist
    rcases List.mem_cons.mp hp with rfl | hp2
    · exact mem_dictUpdate_of_fresh rest (dictSet d k v) k v
        (fun q hq => (hdist.1 q hq).symm) (dictSet_mem_self d k v)
    · exact ih (dictSet d k v) hdist.2 p hp2

theorem mem_of_mem_dedupeKeysAux :
    ∀ (l : List (Bytes × Bytes)) (seen : List Bytes) (p : Bytes × Bytes),
      p ∈ dedupeKeysAux seen l → p ∈ l := by
  intro l
  induction l with
  | nil => intro seen p hp; simp [dedupeKeysAux] at hp
  | cons e rest ih =>
    intro seen p hp
    obtain ⟨k, v⟩ := e
    by_cases hk : k ∈ seen
    · simp only [dedupeKeysAux, if_pos hk] at hp
      exact List.mem_cons_of_mem _ (ih seen p hp)
    · simp only [dedupeKeysAux, if_neg hk] at hp
      rcases List.mem_cons.mp hp with rfl | hp2
      · exact List.mem_cons_self _ _
      · exact List.mem_cons_of_mem _ (ih (k :: seen) p hp2)

theorem dedupeKeysAux_key_not_seen :
    ∀ (l : List (Bytes × Bytes)) (seen : List Bytes) (p : Bytes × Bytes),
      p ∈ dedupeKeysAux seen l → p.1 ∉ seen := by
  intro l
  induction l with
  | nil => intro seen p hp; simp [dedupeKeysAux] at hp
  | cons e rest ih =>
    intro seen p hp
    obtain ⟨k, v⟩ := e
    by_cases hk : k ∈ seen
    · simp only [dedupeKeysAux, if_pos hk] at hp
      exact ih seen p hp
    · simp only [dedupeKeysAux, if_neg hk] at hp
      rcases List.mem_cons.mp hp with rfl | hp2
      · exact hk
      · exact fun hin => ih (k :: seen) p hp2 (List.mem_cons_of_mem _ hin)

theorem dedupeKeysAux_keys_distinct :
    ∀ (l : List (Bytes × Bytes)) (seen : List Bytes),
      (dedupeKeysAux seen l).Pairwise (fun p q => p.1 ≠ q.1) := by
  intro l
  induction l with
  | nil => intro seen; simp [dedupeKeysAux]
  | cons e rest ih =>
    intro seen
    obtain ⟨k, v⟩ := e
    by_cases hk : k ∈ seen
    · simp only [dedupeKeysAux, if_pos hk]
      exact ih seen
    · simp only [dedupeKeysAux, if_neg hk]
      refine List.Pairwise.cons ?_ (ih (k :: seen))
      intro q hq he
      exact dedupeKeysAux_key_not_seen rest (k :: seen) q hq (by simp [← he])

theorem dedupeKeys_keys_distinct (l : List (Bytes × Bytes)) :
    (dedupeKeys l).Pairwise (fun p q => p.1 ≠ q.1) :=
  dedupeKeysAux_keys_distinct l []

theorem perm_sortLe (le : α → α → Bool) :
    ∀ l : List α, List.Perm (sortLe le l) l := by
  intro l
  induction l with
  | nil => simp [sortLe]
  | cons p ps ih => exact (perm_insertLe le p (sortLe le ps)).trans (ih.cons p)

theorem pairwise_sortLe (le : α → α → Bool)
    (htot : ∀ a b, le a b = true ∨ le b a = true)
    (htrans : ∀ a b c, le a b = true → le b c = true → le a c = true) :
    ∀ l : List α, (sortLe le l).Pairwise (fun a b => le a b = true) := by
  intro l
  induction l with
  | nil => simp [sortLe]
  | cons p ps ih => exact pairwise_insertLe le htot htrans p _ ih

end XCli

/-! ## Segment containment -/

namespace XCli

theorem SegIn.refl (h : List α) : SegIn h h :=
  ⟨[], [], by simp⟩

theorem SegIn.of_prefix (n t : List α) : SegIn n (n ++ t) :=
  ⟨[], t, rfl⟩

theorem SegIn.append_left (x : List α) {n h : List α} (hs : SegIn n h) :
    SegIn n (x ++ h) := by
  obtain ⟨s, t, rfl⟩ := hs
  exact ⟨x ++ s, t, by simp⟩

theorem SegIn.append_right (x : List α) {n h : List α} (hs : SegIn n h) :
    SegIn n (h ++ x) := by
  obtain ⟨s, t, rfl⟩ := hs
  exact ⟨s, t ++ x, by simp⟩

theorem SegIn.trans {a b c : List α} (hab : SegIn a b) (hbc : SegIn b c) :
    SegIn a c := by
  obtain ⟨s1, t1, rfl⟩ := hab
  obtain ⟨s2, t2, rfl⟩ := hbc
  exact ⟨s2 ++ s1, t1 ++ t2, by simp⟩

theorem segIn_joinSep (sep : Bytes) {x : Bytes} :
    ∀ l : List Bytes, x ∈ l → SegIn x (joinSep sep l) := by
  intro l
  induction l with
  | nil => intro hx; simp at hx
  | cons y rest ih =>
    intro hx
    cases rest with
    | nil =>
      rcases List.mem_cons.mp hx with rfl | hx
      · exact SegIn.refl x
      · simp at hx
    | cons z rest2 =>
      rcases List.mem_cons.mp hx with rfl | hx
      · exact ⟨[], sep ++ joinSep sep (z :: rest2), by simp [joinSep]⟩
      · have h2 := SegIn.append_left y (SegIn.append_left sep (ih hx))
        simpa [joinSep, List.append_assoc] using h2

end XCli

/-! ## Claim theorems: the signer -/

namespace XCli

/-- C8: `_percent_encode` is the identity on strings made only of RFC
3986 unreserved bytes (letters, digits, `-` `.` `_` `~`), replaces every
other byte with its `%XX` escape (uppercase hex), and in particular
encodes space as `%20` (never `+`) and encodes `/`, `:`, `?`, `&`, `=`. -/
theorem c8_percent_encode_unreserved_identity :
    (∀ s : Bytes, (∀ b ∈ s, isUnreservedByte b = true) → percent_encode s = s) ∧
    (∀ b : Nat, isUnreservedByte b = false →
      percent_encode [b] = [37, hexDigitByte (b / 16), hexDigitByte (b % 16)]) ∧
    percent_encode (bytesOfAscii " ") = bytesOfAscii "%20" ∧
    percent_encode (bytesOfAscii " ") ≠ bytesOfAscii "+" ∧
    percent_encode (bytesOfAscii "/") = bytesOfAscii "%2F" ∧
    percent_encode (bytesOfAscii ":") = bytesOfAscii "%3A" ∧
    percent_encode (bytesOfAscii "?") = bytesOfAscii "%3F" ∧
    percent_encode (bytesOfAscii "&") = bytesOfAscii "%26" ∧
    percent_encode (bytesOfAscii "=") = bytesOfAscii "%3D" := by
  refine ⟨percent_encode_of_unreserved, ?_, by decide, by decide, by decide,
    by decide, by decide, by decide, by decide⟩
  intro b hb
  rw [percent_encode_cons, percentEncodeByte, if_neg (by simp [hb])]
  rfl

/-- Witness for C8 at concrete inputs: an unreserved string is left
unchanged, and the reserved byte `%` (37) becomes `%25`. -/
theorem c8_percent_encode_unreserved_identity_witness :
    percent_encode (bytesOfAscii "abc-._~XYZ09") = bytesOfAscii "abc-._~XYZ09" ∧
    percent_encode [37] = [37, 50, 53] := by
  refine ⟨c8_percent_encode_unreserved_identity.1 _ (by decide), ?_⟩
  have h := c8_percent_encode_unreserved_identity.2.1 37 (by decide)
  simpa using h

/-- C2 is refuted on the code: `generate_oauth_header` sorts the raw
(unencoded) key/value tuples, not the percent-encoded ones.  With extra
parameter keys `-` (45) and `/` (47) the raw order puts `-` first while
the encoded order puts `%2F` first, so the parameter string the code
signs differs from the one the claim describes. -/
theorem c2_counterexample_sorted_raw_not_encoded :
    sorted_params iC2 ≠ sortedParamsSpec iC2 ∧
    param_string iC2 ≠ paramStringSpec iC2 ∧
    (sorted_params iC2).map Prod.fst =
      [bytesOfAscii "-", bytesOfAscii "/", bytesOfAscii "oauth_consumer_key",
       bytesOfAscii "oauth_nonce", bytesOfAscii "oauth_signature_method",
       bytesOfAscii "oauth_timestamp", bytesOfAscii "oauth_token",
       bytesOfAscii "oauth_version"] ∧
    (sortedParamsSpec iC2).map Prod.fst =
      [bytesOfAscii "/", bytesOfAscii "-", bytesOfAscii "oauth_consumer_key",
       bytesOfAscii "oauth_nonce", bytesOfAscii "oauth_signature_method",
       bytesOfAscii "oauth_timestamp", bytesOfAscii "oauth_token",
       bytesOfAscii "oauth_version"] :=
  ⟨by decide, by decide, by decide, by decide⟩

/-- C2 (amended): in every call the parameter string is built from the
full parameter set (oauth, extra and query parameters) sorted
lexicographically by the raw key with ties broken by the raw value
(Python tuple order; keys are unique so the tie-break never fires), each
pair percent-encoded as `key=value` and joined with `&`. -/
theorem c2_param_string_sorted_raw (i : SignerInputs) :
    (sorted_params i).Pairwise (fun p q => pairLe p q = true) ∧
    List.Perm (sorted_params i) (allParams i) ∧
    param_string i = joinSep [38] ((sorted_params i).map fun p =>
      percent_encode p.1 ++ [61] ++ percent_encode p.2) :=
  ⟨pairwise_sortLe pairLe pairLe_total pairLe_trans _, perm_sortLe pairLe _, rfl⟩

/-- C3: the signature base string is
`UPPER(method) & pe(base_url) & pe(param_string)`; the base URL is the
scheme, netloc and path with the query string dropped (it is insensitive
to the query component), while every parsed query pair still appears,
with its value, in the signed parameter set. -/
theorem c3_base_string_strips_query_keeps_pairs (i : SignerInputs) :
    base_string i =
      upperBytes i.method ++ [38] ++ percent_encode (base_url i) ++ [38] ++
        percent_encode (param_string i) ∧
    base_url i = i.url.scheme ++ bytesOfAscii "://" ++ i.url.netloc ++ i.url.path ∧
    (∀ q2 : Bytes,
      base_url { i with url := { i.url with query := q2 } } = base_url i) ∧
    (∀ p ∈ dedupeKeys (parseQsPairs i.url.query), p ∈ allParams i) := by
  refine ⟨rfl, rfl, fun q2 => rfl, ?_⟩
  intro p hp
  exact mem_dictUpdate_of_keys_distinct _ _ (dedupeKeys_keys_distinct _) p hp

/-- Witness for C3 at the spec's scenario: signing
`GET https://api.example.com/2/tweets/123?tweet.fields=created_at` puts
`tweet.fields=created_at` into the signed parameter set while the base
URL excludes the query string. -/
theorem c3_base_string_strips_query_keeps_pairs_witness :
    (bytesOfAscii "tweet.fields", bytesOfAscii "created_at") ∈ allParams iC3 ∧
    base_url iC3 = bytesOfAscii "https://api.example.com/2/tweets/123" :=
  ⟨(c3_base_string_strips_query_keeps_pairs iC3).2.2.2 _ (by decide), by decide⟩

/-- C7: for every input the header starts with `OAuth `, contains the
`oauth_consumer_key`, `oauth_token` and `oauth_signature` field names,
and is the comma-space join of `pe(key)="pe(value)"` pairs of exactly
the seven oauth parameters (never the extra or query parameters,
whatever `i.params` and the URL query hold), sorted by key. -/
theorem c7_header_shape (i : SignerInputs) (sig : Bytes) :
    (∃ rest, headerBytes i sig = bytesOfAscii "OAuth " ++ rest) ∧
    SegIn (bytesOfAscii "oauth_consumer_key") (headerBytes i sig) ∧
    SegIn (bytesOfAscii "oauth_token") (headerBytes i sig) ∧
    SegIn (bytesOfAscii "oauth_signature") (headerBytes i sig) ∧
    (oauthParamsFinal i sig).map Prod.fst =
      [bytesOfAscii "oauth_consumer_key", bytesOfAscii "oauth_nonce",
       bytesOfAscii "oauth_signature_method", bytesOfAscii "oauth_timestamp",
       bytesOfAscii "oauth_token", bytesOfAscii "oauth_version",
       bytesOfAscii "oauth_signature"] ∧
    (sortLe pairLe (oauthParamsFinal i sig)).Pairwise (fun p q => pairLe p q = true) ∧
    List.Perm (sortLe pairLe (oauthParamsFinal i sig)) (oauthParamsFinal i sig) ∧
    headerBytes i sig = bytesOfAscii "OAuth " ++
      joinSep (bytesOfAscii ", ")
        ((sortLe pairLe (oauthParamsFinal i sig)).map fun p =>
          percent_encode p.1 ++ [61, 34] ++ percent_encode p.2 ++ [34]) := by
  have hsorted : sortLe pairLe (oauthParamsFinal i sig) =
      [(bytesOfAscii "oauth_consumer_key", i.creds.api_key),
       (bytesOfAscii "oauth_nonce", i.nonce),
       (bytesOfAscii "oauth_signature", sig),
       (bytesOfAscii "oauth_signature_method", bytesOfAscii "HMAC-SHA1"),
       (bytesOfAscii "oauth_timestamp", i.timestamp),
       (bytesOfAscii "oauth_token", i.creds.access_token),
       (bytesOfAscii "oauth_version", bytesOfAscii "1.0")] := rfl
  have hseg : ∀ k v : Bytes, (k, v) ∈ sortLe pairLe (oauthParamsFinal i sig) →
      percent_encode k = k → SegIn k (headerBytes i sig) := by
    intro k v hp hk
    have hfmt : (percent_encode k ++ [61, 34] ++ percent_encode v ++ [34]) ∈
        ((sortLe pairLe (oauthParamsFinal i sig)).map fun p =>
          percent_encode p.1 ++ [61, 34] ++ percent_encode p.2 ++ [34]) :=
      List.mem_map_of_mem _ hp
    have h1 : SegIn k (percent_encode k ++ [61, 34] ++ percent_encode v ++ [34]) := by
      rw [hk]
      exact ⟨[], [61, 34] ++ percent_encode v ++ [34], by simp [List.append_assoc]⟩
    exact SegIn.append_left (bytesOfAscii "OAuth ")
      (h1.trans (segIn_joinSep (bytesOfAscii ", ") _ hfmt))
  refine ⟨⟨_, rfl⟩, ?_, ?_, ?_, rfl,
    pairwise_sortLe pairLe pairLe_total pairLe_trans _, perm_sortLe pairLe _, rfl⟩
  · exact hseg (bytesOfAscii "oauth_consumer_key") i.creds.api_key
      (by rw [hsorted]; exact List.mem_cons_self _ _) (by decide)
  · exact hseg (bytesOfAscii "oauth_token") i.creds.access_token
      (by rw [hsorted]; simp) (by decide)
  · exact hseg (bytesOfAscii "oauth_signature") sig
      (by rw [hsorted]; simp) (by decide)

end XCli

/-! ## Claim theorems: the watch loop -/

namespace XCli

theorem isPrefixB_iff [DecidableEq α] :
    ∀ n h : List α, isPrefixB n h = true ↔ ∃ t, h = n ++ t := by
  intro n
  induction n with
  | nil => intro h; simp [isPrefixB]
  | cons a as ih =>
    intro h
    cases h with
    | nil => simp [isPrefixB]
    | cons b bs =>
      simp only [isPrefixB, Bool.and_eq_true, decide_eq_true_eq, ih bs]
      constructor
      · rintro ⟨rfl, t, rfl⟩
        exact ⟨t, rfl⟩
      · rintro ⟨t, ht⟩
        injection ht with h1 h2
        exact ⟨h1.symm, t, h2⟩

theorem containsSeg_iff [DecidableEq α] (n : List α) :
    ∀ h : List α, containsSeg n h = true ↔ SegIn n h := by
  intro h
  induction h with
  | nil =>
    simp only [containsSeg, decide_eq_true_eq]
    constructor
    · rintro rfl
      exact ⟨[], [], rfl⟩
    · rintro ⟨s, t, ht⟩
      rcases List.append_eq_nil.mp ht.symm with ⟨h1, h2⟩
      rcases List.append_eq_nil.mp h1 with ⟨-, h3⟩
      exact h3
  | cons b bs ih =>
    simp only [containsSeg, Bool.or_eq_true, isPrefixB_iff, ih]
    constructor
    · rintro (⟨t, ht⟩ | ⟨s, t, ht⟩)
      · exact ⟨[], t, by simp [ht]⟩
      · exact ⟨b :: s, t, by simp [ht]⟩
    · rintro ⟨s, t, ht⟩
      cases s with
      | nil => exact Or.inl ⟨t, by simpa using ht⟩
      | cons a s2 =>
        have ht2 : b :: bs = a :: (s2 ++ n ++ t) := by simpa using ht
        injection ht2 with h1 h2
        exact Or.inr ⟨s2, t, h2⟩

/-- C6 is refuted on the code at the empty keyword: `[""]` is a
non-empty filter list, yet `_matches_filters("", [""])` is `True`
(the empty string is a substring of everything), contradicting the
clause that empty text never matches a non-empty filter list. -/
theorem c6_counterexample_empty_keyword :
    (([""] : List String) ≠ []) ∧ matches_filters "" [""] = true := by
  exact ⟨by decide, by decide⟩

/-- C6 (amended): `matches(text, [])` is always true; `matches("", kws)`
is false for every non-empty filter list whose keywords are all
non-empty (an empty keyword matches everything, which is what refutes
the original clause); a match means some keyword, lowercased, occurs as
a substring of the lowercased text; and the result is invariant under
case changes of the text or of the keywords. -/
theorem c6_matches_filters_semantics :
    (∀ text : String, matches_filters text [] = true) ∧
    (∀ kws : List String, kws ≠ [] → (∀ f ∈ kws, f ≠ "") →
      matches_filters "" kws = false) ∧
    (∀ (text : String) (kws : List String),
      matches_filters text kws = true ↔
        (kws = [] ∨ ∃ f ∈ kws, SegIn (lowerPy f).data (lowerPy text).data)) ∧
    (∀ (t1 t2 : String) (kws : List String), lowerPy t1 = lowerPy t2 →
      matches_filters t1 kws = matches_filters t2 kws) ∧
    (∀ (text : String) (kws1 kws2 : List String),
      kws1.map lowerPy = kws2.map lowerPy →
      matches_filters text kws1 = matches_filters text kws2) := by
  have hany : ∀ (text : String) (kws : List String),
      (kws.any fun f => containsSeg (lowerPy f).data (lowerPy text).data) =
        (kws.map lowerPy).any fun lf => containsSeg lf.data (lowerPy text).data := by
    intro text kws
    rw [List.any_map]
    rfl
  refine ⟨fun text => rfl, ?_, ?_, ?_, ?_⟩
  · intro kws hne hnonempty
    rw [matches_filters, if_neg hne]
    rw [List.any_eq_false]
    intro f hf hcontra
    have h0 : (lowerPy "").data = [] := rfl
    rw [h0] at hcontra
    simp only [containsSeg, decide_eq_true_eq] at hcontra
    have : f.data = [] := by
      have := congrArg List.length hcontra
      simpa [lowerPy] using List.map_eq_nil_iff.mp hcontra
    exact hnonempty f hf (by cases f; simp_all)
  · intro text kws
    by_cases hk : kws = []
    · subst hk
      simp [matches_filters]
    · rw [matches_filters, if_neg hk]
      simp only [List.any_eq_true, containsSeg_iff, hk, false_or]
  · intro t1 t2 kws h
    rw [matches_filters, matches_filters, h]
  · intro text kws1 kws2 h
    have he : (kws1 = []) ↔ (kws2 = []) := by
      constructor <;> intro hx <;> subst hx
      · exact List.map_eq_nil_iff.mp h.symm
      · exact List.map_eq_nil_iff.mp h
    by_cases h1 : kws1 = []
    · rw [matches_filters, matches_filters, if_pos h1, if_pos (he.mp h1)]
    · rw [matches_filters, matches_filters, if_neg h1, if_neg (fun hx => h1 (he.mpr hx)),
        hany, hany, h]

/-- Witness for C6 (amended) at concrete inputs: a non-empty filter list
of non-empty keywords never matches empty text, and a case-changed
keyword still matches. -/
theorem c6_matches_filters_semantics_witness :
    matches_filters "" ["nvda"] = false ∧
    matches_filters "NVIDIA is pumping" ["nvidia"] = true := by
  refine ⟨c6_matches_filters_semantics.2.1 ["nvda"] (by decide) (by decide), ?_⟩
  exact (c6_matches_filters_semantics.2.2.1 "NVIDIA is pumping" ["nvidia"]).mpr
    (Or.inr ⟨"nvidia", by decide, (containsSeg_iff _ _).mp (by decide)⟩)

/-- C5: when a target's fetch raises `RateLimitError{reset_at}` the loop
sleeps `max(0, int(reset_at) - now) + 5` seconds when `reset_at` parses
as an integer and exactly 60 seconds when it does not, leaves the
target's cursor (and all the stats) unchanged, and goes on to handle the
remaining targets of the pass. -/
theorem c5_rate_limited_backoff (filters : List String) (mt : Option Nat)
    (tg : Target) (ra : String) (now : Int) (st : LoopState)
    (rest : List (Target × PollResult)) :
    stepTarget filters mt tg (.rateLimited ra now) st =
      (tg, { st with sleeps := st.sleeps ++ [rlWait ra now] }, false) ∧
    (∀ r : Int, parseIntPy ra = some r → rlWait ra now = max 0 (r - now) + 5) ∧
    (parseIntPy ra = none → rlWait ra now = 60) ∧
    stepPass filters mt ((tg, .rateLimited ra now) :: rest) st =
      (tg :: (stepPass filters mt rest
          { st with sleeps := st.sleeps ++ [rlWait ra now] }).1,
        (stepPass filters mt rest
          { st with sleeps := st.sleeps ++ [rlWait ra now] }).2.1,
        (stepPass filters mt rest
          { st with sleeps := st.sleeps ++ [rlWait ra now] }).2.2) := by
  refine ⟨rfl, ?_, ?_, rfl⟩
  · intro r h
    rw [rlWait, h]
  · intro h
    rw [rlWait, h]

/-- Witness for C5 at concrete inputs: reset header `"100"` at clock 50
sleeps 55 seconds, the unparsable header `"oops"` sleeps 60, and the
target comes out of the step untouched. -/
theorem c5_rate_limited_backoff_witness :
    rlWait "100" 50 = 55 ∧ rlWait "oops" 7 = 60 ∧
    stepTarget [] none ⟨"u", "1", some 3⟩ (.rateLimited "100" 50) initState =
      (⟨"u", "1", some 3⟩, { initState with sleeps := [55] }, false) := by
  have h1 := c5_rate_limited_backoff [] none ⟨"u", "1", some 3⟩ "100" 50 initState []
  have h2 := c5_rate_limited_backoff [] none ⟨"u", "1", some 3⟩ "oops" 7 initState []
  have e1 : rlWait "100" 50 = 55 := by
    rw [h1.2.1 100 (by decide)]
    decide
  have e2 : rlWait "oops" 7 = 60 := h2.2.2.1 (by decide)
  refine ⟨e1, e2, ?_⟩
  rw [h1.1, e1]
  rfl

theorem cursorLe_refl (a : Option Nat) : cursorLe a a :=
  fun c hc => ⟨c, hc, Nat.le_refl c⟩

theorem processItems_rendered (filters : List String) (mt : Option Nat) (u : String) :
    ∀ (items : List Tweet) (st : LoopState),
      (processItems filters mt u items st).2 = false →
      (processItems filters mt u items st).1.rendered =
        st.rendered ++ ((items.filter fun t =>
          matches_filters (effectiveText t) filters).map fun t => (u, t.id)) := by
  intro items
  induction items with
  | nil => intro st h; simp [processItems]
  | cons t rest ih =>
    intro st h
    by_cases hm : matches_filters (effectiveText t) filters = true
    · rw [processItems, if_pos hm] at h ⊢
      by_cases hb : budgetHit mt (st.tweets_seen + 1) = true
      · rw [if_pos hb] at h
        simp at h
      · rw [if_neg hb] at h ⊢
        rw [ih _ h]
        simp [List.filter_cons, hm, List.append_assoc]
    · rw [processItems, if_neg hm] at h ⊢
      rw [ih _ h]
      simp [List.filter_cons, hm]

/-- C1: after fully processing a non-empty batch the loop has handled
the items oldest-first (the rendered output extends by the reversed,
filtered batch) and sets the target's cursor to the id of the newest
item — the head of the original newest-first list — even when every
item was filtered out; and over one pass, provided every delivered
batch's newest id is at least the target's current cursor (the since_id
contract), no target's cursor moves backward. -/
theorem c1_cursor_newest_even_if_filtered :
    (∀ (filters : List String) (mt : Option Nat) (tg : Target) (t0 : Tweet)
        (rest : List Tweet) (st : LoopState),
      (processItems filters mt tg.username ((t0 :: rest).reverse) st).2 = false →
        stepTarget filters mt tg (.ok (t0 :: rest)) st =
          ({ tg with last_seen_id := some t0.id },
            (processItems filters mt tg.username ((t0 :: rest).reverse) st).1, false) ∧
        (processItems filters mt tg.username ((t0 :: rest).reverse) st).1.rendered =
          st.rendered ++ (((t0 :: rest).reverse.filter fun t =>
            matches_filters (effectiveText t) filters).map fun t => (tg.username, t.id))) ∧
    (∀ (filters : List String) (mt : Option Nat)
        (pairs : List (Target × PollResult)) (st : LoopState),
      (∀ p ∈ pairs, ∀ (t0 : Tweet) (ts : List Tweet), p.2 = .ok (t0 :: ts) →
        cursorLe p.1.last_seen_id (some t0.id)) →
      List.Forall₂ (fun a b => cursorLe a.last_seen_id b.last_seen_id)
        (pairs.map Prod.fst) (stepPass filters mt pairs st).1) := by
  constructor
  · intro filters mt tg t0 rest st h
    refine ⟨?_, processItems_rendered filters mt tg.username _ st h⟩
    rw [stepTarget]
    simp only [h, Bool.false_eq_true, if_false]
  · intro filters mt pairs
    induction pairs with
    | nil => intro st _; exact List.Forall₂.nil
    | cons pr rest ih =>
      intro st hall
      obtain ⟨tg, res⟩ := pr
      have htail : ∀ p ∈ rest, ∀ (t0 : Tweet) (ts : List Tweet),
          p.2 = .ok (t0 :: ts) → cursorLe p.1.last_seen_id (some t0.id) :=
        fun p hp => hall p (List.mem_cons_of_mem _ hp)
      cases res with
      | rateLimited ra now =>
        rw [List.map_cons, stepPass]
        exact List.Forall₂.cons (cursorLe_refl _) (ih _ htail)
      | failed =>
        rw [List.map_cons, stepPass]
        exact List.Forall₂.cons (cursorLe_refl _) (ih _ htail)
      | ok tweets =>
        cases tweets with
        | nil =>
          rw [List.map_cons, stepPass]
          exact List.Forall₂.cons (cursorLe_refl _) (ih _ htail)
        | cons t0 ts =>
          rw [List.map_cons, stepPass, stepTarget]
          by_cases hstop :
              (processItems filters mt tg.username ((t0 :: ts).reverse) st).2 = true
          · simp only [hstop, if_true]
            refine List.Forall₂.cons (cursorLe_refl _) ?_
            exact List.forall₂_same.mpr fun x _ => cursorLe_refl _
          · simp only [Bool.not_eq_true] at hstop
            simp only [hstop, Bool.false_eq_true, if_false]
            refine List.Forall₂.cons ?_ (ih _ htail)
            exact hall (tg, .ok (t0 :: ts)) (List.mem_cons_self _ _) t0 ts rfl

/-- Witness for C1 at concrete inputs: a two-item batch in which every
item is rejected by the filter still advances the cursor from 3 to the
newest id 5 and renders nothing; the pass-level cursor comparison holds
for that target. -/
theorem c1_cursor_newest_even_if_filtered_witness :
    stepTarget ["q"] none ⟨"u", "1", some 3⟩
        (.ok [⟨5, "a", none⟩, ⟨4, "b", none⟩]) initState =
      (⟨"u", "1", some 5⟩, initState, false) ∧
    List.Forall₂ (fun a b : Target => cursorLe a.last_seen_id b.last_seen_id)
      ([⟨"u", "1", some 3⟩] : List Target)
      (stepPass ["q"] none
        [(⟨"u", "1", some 3⟩, .ok [⟨5, "a", none⟩, ⟨4, "b", none⟩])] initState).1 := by
  constructor
  · have h := (c1_cursor_newest_even_if_filtered.1 ["q"] none ⟨"u", "1", some 3⟩
      ⟨5, "a", none⟩ [⟨4, "b", none⟩] initState (by decide)).1
    rw [h]
    rfl
  · have hyp : ∀ p ∈ [((⟨"u", "1", some 3⟩ : Target),
        PollResult.ok [(⟨5, "a", none⟩ : Tweet), ⟨4, "b", none⟩])],
        ∀ (t0 : Tweet) (ts : List Tweet), p.2 = .ok (t0 :: ts) →
          cursorLe p.1.last_seen_id (some t0.id) := by
      intro p hp t0 ts heq
      simp only [List.mem_singleton] at hp
      subst hp
      have heq2 : PollResult.ok [(⟨5, "a", none⟩ : Tweet), ⟨4, "b", none⟩] =
          PollResult.ok (t0 :: ts) := heq
      injection heq2 with h2
      injection h2 with h3 h4
      intro c hc
      refine ⟨t0.id, rfl, ?_⟩
      have hc2 : some 3 = some c := hc
      injection hc2 with hc3
      subst hc3
      rw [← h3]
      decide
    exact c1_cursor_newest_even_if_filtered.2 ["q"] none _ initState hyp

theorem processItems_budget (N : Nat) (hN : 0 < N) (filters : List String) (u : String) :
    ∀ (items : List Tweet) (st : LoopState), BudgetInv N st → st.stopped = false →
      BudgetInv N (processItems filters (some N) u items st).1 ∧
      (processItems filters (some N) u items st).2 =
        (processItems filters (some N) u items st).1.stopped := by
  intro items
  induction items with
  | nil =>
    intro st hinv hstop
    exact ⟨hinv, by simp [processItems, hstop]⟩
  | cons t rest ih =>
    intro st hinv hstop
    obtain ⟨hlen, hstopped, hrun⟩ := hinv
    have hlt : st.tweets_seen < N := hrun hstop
    by_cases hm : matches_filters (effectiveText t) filters = true
    · rw [processItems, if_pos hm]
      by_cases hb : budgetHit (some N) (st.tweets_seen + 1) = true
      · rw [if_pos hb]
        have hle : N ≤ st.tweets_seen + 1 := by
          rw [budgetHit] at hb
          rw [if_neg (Nat.pos_iff_ne_zero.mp hN)] at hb
          exact of_decide_eq_true hb
        have heq : st.tweets_seen + 1 = N := by omega
        refine ⟨⟨?_, ?_, ?_⟩, rfl⟩
        · simp [hlen]
        · intro _
          exact ⟨heq, rfl⟩
        · intro hcontra
          simp at hcontra
      · rw [if_neg hb]
        have hlt2 : st.tweets_seen + 1 < N := by
          rw [budgetHit, if_neg (Nat.pos_iff_ne_zero.mp hN)] at hb
          simp only [decide_eq_true_eq] at hb
          omega
        refine ih _ ⟨by simp [hlen], ?_, fun _ => hlt2⟩ hstop
        intro hcontra
        rw [show ({ st with
          rendered := st.rendered ++ [(u, t.id)],
          tweets_seen := st.tweets_seen + 1,
          per_user := perUserSet st.per_user u (perUserGet st.per_user u + 1) :
            LoopState }).stopped = st.stopped from rfl, hstop] at hcontra
        simp at hcontra
    · rw [processItems, if_neg hm]
      exact ih st ⟨hlen, hstopped, hrun⟩ hstop

theorem stepTarget_budget (N : Nat) (hN : 0 < N) (filters : List String)
    (tg : Target) (res : PollResult) (st : LoopState)
    (hinv : BudgetInv N st) (hstop : st.stopped = false) :
    BudgetInv N (stepTarget filters (some N) tg res st).2.1 ∧
    (stepTarget filters (some N) tg res st).2.2 =
      (stepTarget filters (some N) tg res st).2.1.stopped := by
  cases res with
  | rateLimited ra now =>
    exact ⟨⟨hinv.1, fun h => hinv.2.1 h, fun h => hinv.2.2 h⟩, hstop.symm⟩
  | failed => exact ⟨hinv, hstop.symm⟩
  | ok tweets =>
    cases tweets with
    | nil => exact ⟨hinv, hstop.symm⟩
    | cons t0 ts =>
      have hp := processItems_budget N hN filters tg.username ((t0 :: ts).reverse) st hinv hstop
      rw [stepTarget]
      by_cases hs : (processItems filters (some N) tg.username ((t0 :: ts).reverse) st).2 = true
      · simp only [hs, if_true]
        exact ⟨hp.1, (hp.2.symm.trans hs).symm⟩
      · simp only [Bool.not_eq_true] at hs
        simp only [hs, Bool.false_eq_true, if_false]
        exact ⟨hp.1, (hp.2.symm.trans hs).symm⟩

theorem stepPass_budget (N : Nat) (hN : 0 < N) (filters : List String) :
    ∀ (pairs : List (Target × PollResult)) (st : LoopState),
      BudgetInv N st → st.stopped = false →
      BudgetInv N (stepPass filters (some N) pairs st).2.1 ∧
      (stepPass filters (some N) pairs st).2.2 =
        (stepPass filters (some N) pairs st).2.1.stopped := by
  intro pairs
  induction pairs with
  | nil =>
    intro st hinv hstop
    exact ⟨hinv, by simp [stepPass, hstop]⟩
  | cons pr rest ih =>
    intro st hinv hstop
    obtain ⟨tg, res⟩ := pr
    have h1 := stepTarget_budget N hN filters tg res st hinv hstop
    rw [stepPass]
    by_cases hs : (stepTarget filters (some N) tg res st).2.2 = true
    · simp only [hs, if_true]
      exact ⟨h1.1, (h1.2.symm.trans hs).symm⟩
    · simp only [Bool.not_eq_true] at hs
      simp only [hs, Bool.false_eq_true, if_false]
      exact ih _ h1.1 (h1.2.symm.trans hs)

theorem watchRun_budget (N : Nat) (hN : 0 < N) (filters : List String) (interval : Int) :
    ∀ (script : List (List PollResult)) (tgs : List Target) (st : LoopState),
      BudgetInv N st → st.stopped = false →
      BudgetInv N (watchRun filters (some N) interval script tgs st).2 := by
  intro script
  induction script with
  | nil => intro tgs st hinv _; exact hinv
  | cons results passes ih =>
    intro tgs st hinv hstop
    have h1 := stepPass_budget N hN filters (tgs.zip results) st hinv hstop
    rw [watchRun]
    by_cases hs : (stepPass filters (some N) (tgs.zip results) st).2.2 = true
    · simp only [hs, if_true]
      exact h1.1
    · simp only [Bool.not_eq_true] at hs
      simp only [hs, Bool.false_eq_true, if_false]
      have hstop2 := h1.2.symm.trans hs
      exact ih _ _ ⟨h1.1.1, fun h => h1.1.2.1 h, fun h => h1.1.2.2 h⟩ hstop2

/-- C4: with a positive item budget N the loop never renders more than N
items; and whenever it terminates through the budget check (the stopped
flag) it has rendered exactly N items and printed the session summary —
the stop fires immediately mid-batch, so nothing after the N-th item is
rendered. -/
theorem c4_budget_stops_at_n (N : Nat) (hN : 0 < N) (filters : List String)
    (interval : Int) (script : List (List PollResult)) (tgs : List Target) :
    ((watchRun filters (some N) interval script tgs initState).2).rendered.length ≤ N ∧
    ((watchRun filters (some N) interval script tgs initState).2).tweets_seen ≤ N ∧
    (((watchRun filters (some N) interval script tgs initState).2).stopped = true →
      ((watchRun filters (some N) interval script tgs initState).2).rendered.length = N ∧
      ((watchRun filters (some N) interval script tgs initState).2).tweets_seen = N ∧
      ((watchRun filters (some N) interval script tgs initState).2).summary = true) := by
  have h := watchRun_budget N hN filters interval script tgs initState
    ⟨rfl, by simp [initState], fun _ => hN⟩ rfl
  obtain ⟨hlen, hstopped, hrun⟩ := h
  by_cases hs : ((watchRun filters (some N) interval script tgs initState).2).stopped = true
  · obtain ⟨he, hsum⟩ := hstopped hs
    exact ⟨by omega, by omega, fun _ => ⟨by omega, he, hsum⟩⟩
  · simp only [Bool.not_eq_true] at hs
    have := hrun hs
    exact ⟨by omega, by omega, fun hc => absurd hc (by simp [hs])⟩

/-- Witness for C4 at a concrete run: budget 1 and a two-item batch
render exactly one item, stop, and print the summary. -/
theorem c4_budget_stops_at_n_witness :
    ((watchRun [] (some 1) 30 [[.ok [⟨5, "a", none⟩, ⟨4, "b", none⟩]]]
        [⟨"u", "1", none⟩] initState).2).rendered.length ≤ 1 ∧
    ((watchRun [] (some 1) 30 [[.ok [⟨5, "a", none⟩, ⟨4, "b", none⟩]]]
        [⟨"u", "1", none⟩] initState).2).tweets_seen ≤ 1 ∧
    (((watchRun [] (some 1) 30 [[.ok [⟨5, "a", none⟩, ⟨4, "b", none⟩]]]
        [⟨"u", "1", none⟩] initState).2).stopped = true →
      ((watchRun [] (some 1) 30 [[.ok [⟨5, "a", none⟩, ⟨4, "b", none⟩]]]
          [⟨"u", "1", none⟩] initState).2).rendered.length = 1 ∧
      ((watchRun [] (some 1) 30 [[.ok [⟨5, "a", none⟩, ⟨4, "b", none⟩]]]
          [⟨"u", "1", none⟩] initState).2).tweets_seen = 1 ∧
      ((watchRun [] (some 1) 30 [[.ok [⟨5, "a", none⟩, ⟨4, "b", none⟩]]]
          [⟨"u", "1", none⟩] initState).2).summary = true) :=
  c4_budget_stops_at_n 1 (by decide) [] 30
    [[.ok [⟨5, "a", none⟩, ⟨4, "b", none⟩]]] [⟨"u", "1", none⟩]

theorem sumCounts_perUserSet (u : String) :
    ∀ d : List (String × Nat),
      sumCounts (perUserSet d u (perUserGet d u + 1)) = sumCounts d + 1 := by
  intro d
  induction d with
  | nil => simp [perUserSet, perUserGet, sumCounts]
  | cons p rest ih =>
    obtain ⟨k, m⟩ := p
    by_cases h : k = u
    · subst h
      simp [perUserSet, perUserGet, sumCounts]
      omega
    · simp only [perUserSet, perUserGet, if_neg h]
      simp only [sumCounts, List.map_cons, List.sum_cons] at ih ⊢
      omega

theorem processItems_sum (filters : List String) (mt : Option Nat) (u : String) :
    ∀ (items : List Tweet) (st : LoopState),
      st.tweets_seen = sumCounts st.per_user →
      (processItems filters mt u items st).1.tweets_seen =
        sumCounts (processItems filters mt u items st).1.per_user := by
  intro items
  induction items with
  | nil => intro st h; exact h
  | cons t rest ih =>
    intro st h
    by_cases hm : matches_filters (effectiveText t) filters = true
    · rw [processItems, if_pos hm]
      by_cases hb : budgetHit mt (st.tweets_seen + 1) = true
      · rw [if_pos hb]
        show st.tweets_seen + 1 = sumCounts (perUserSet st.per_user u (perUserGet st.per_user u + 1))
        rw [sumCounts_perUserSet, h]
      · rw [if_neg hb]
        refine ih _ ?_
        show st.tweets_seen + 1 = sumCounts (perUserSet st.per_user u (perUserGet st.per_user u + 1))
        rw [sumCounts_perUserSet, h]
    · rw [processItems, if_neg hm]
      exact ih st h

theorem stepTarget_sum (filters : List String) (mt : Option Nat)
    (tg : Target) (res : PollResult) (st : LoopState)
    (h : st.tweets_seen = sumCounts st.per_user) :
    (stepTarget filters mt tg res st).2.1.tweets_seen =
      sumCounts (stepTarget filters mt tg res st).2.1.per_user := by
  cases res with
  | rateLimited ra now => exact h
  | failed => exact h
  | ok tweets =>
    cases tweets with
    | nil => exact h
    | cons t0 ts =>
      have hp := processItems_sum filters mt tg.username ((t0 :: ts).reverse) st h
      rw [stepTarget]
      by_cases hs : (processItems filters mt tg.username ((t0 :: ts).reverse) st).2 = true
      · simp only [hs, if_true]
        exact hp
      · simp only [Bool.not_eq_true] at hs
        simp only [hs, Bool.false_eq_true, if_false]
        exact hp

theorem stepPass_sum (filters : List String) (mt : Option Nat) :
    ∀ (pairs : List (Target × PollResult)) (st : LoopState),
      st.tweets_seen = sumCounts st.per_user →
      (stepPass filters mt pairs st).2.1.tweets_seen =
        sumCounts (stepPass filters mt pairs st).2.1.per_user := by
  intro pairs
  induction pairs with
  | nil => intro st h; exact h
  | cons pr rest ih =>
    intro st h
    obtain ⟨tg, res⟩ := pr
    have h1 := stepTarget_sum filters mt tg res st h
    rw [stepPass]
    by_cases hs : (stepTarget filters mt tg res st).2.2 = true
    · simp only [hs, if_true]
      exact h1
    · simp only [Bool.not_eq_true] at hs
      simp only [hs, Bool.false_eq_true, if_false]
      exact ih _ h1

/-- C9: at every point of a watch session (the script of poll outcomes
is arbitrary, so every reachable state is the final state of some run)
the statistics satisfy `tweets_seen = sum(per_user.values())`; the
counters are naturals, hence non-negative by construction, and in the
model the state is threaded only through the loop itself. -/
theorem c9_stats_sum_invariant (filters : List String) (mt : Option Nat)
    (interval : Int) (script : List (List PollResult)) (tgs : List Target) :
    ((watchRun filters mt interval script tgs initState).2).tweets_seen =
      sumCounts ((watchRun filters mt interval script tgs initState).2).per_user := by
  suffices h : ∀ (script : List (List PollResult)) (tgs : List Target) (st : LoopState),
      st.tweets_seen = sumCounts st.per_user →
      ((watchRun filters mt interval script tgs st).2).tweets_seen =
        sumCounts ((watchRun filters mt interval script tgs st).2).per_user from
    h script tgs initState rfl
  intro script
  induction script with
  | nil => intro tgs st h; exact h
  | cons results passes ih =>
    intro tgs st h
    have h1 := stepPass_sum filters mt (tgs.zip results) st h
    rw [watchRun]
    by_cases hs : (stepPass filters mt (tgs.zip results) st).2.2 = true
    · simp only [hs, if_true]
      exact h1
    · simp only [Bool.not_eq_true] at hs
      simp only [hs, Bool.false_eq_true, if_false]
      exact ih _ _ h1

theorem processItems_zero (filters : List String) (u : String) :
    ∀ (items : List Tweet) (st : LoopState),
      processItems filters (some 0) u items st = processItems filters none u items st := by
  intro items
  induction items with
  | nil => intro st; rfl
  | cons t rest ih =>
    intro st
    rw [processItems, processItems]
    by_cases hm : matches_filters (effectiveText t) filters = true
    · rw [if_pos hm, if_pos hm]
      exact ih _
    · rw [if_neg hm, if_neg hm]
      exact ih st

theorem stepTarget_zero (filters : List String) (tg : Target) (res : PollResult)
    (st : LoopState) :
    stepTarget filters (some 0) tg res st = stepTarget filters none tg res st := by
  cases res with
  | rateLimited ra now => rfl
  | failed => rfl
  | ok tweets =>
    cases tweets with
    | nil => rfl
    | cons t0 ts =>
      rw [stepTarget, stepTarget, processItems_zero]

theorem stepPass_zero (filters : List String) :
    ∀ (pairs : List (Target × PollResult)) (st : LoopState),
      stepPass filters (some 0) pairs st = stepPass filters none pairs st := by
  intro pairs
  induction pairs with
  | nil => intro st; rfl
  | cons pr rest ih =>
    intro st
    obtain ⟨tg, res⟩ := pr
    rw [stepPass, stepPass, stepTarget_zero]
    by_cases hs : (stepTarget filters none tg res st).2.2 = true
    · simp only [hs, if_true]
    · simp only [Bool.not_eq_true] at hs
      simp only [hs, Bool.false_eq_true, if_false, ih]

/-- C10: an item budget of exactly 0 is falsy in
`if max_tweets and stats.tweets_seen >= max_tweets`, so the loop behaves
exactly as if no budget were configured: on every script the two runs
are identical (the budget check never fires and arbitrarily many items
can be rendered). -/
theorem c10_zero_budget_is_unlimited (filters : List String) (interval : Int)
    (script : List (List PollResult)) (tgs : List Target) (st : LoopState) :
    watchRun filters (some 0) interval script tgs st =
      watchRun filters none interval script tgs st := by
  induction script generalizing tgs st with
  | nil => rfl
  | cons results passes ih =>
    rw [watchRun, watchRun, stepPass_zero]
    by_cases hs : (stepPass filters none (tgs.zip results) st).2.2 = true
    · simp only [hs, if_true]
    · simp only [Bool.not_eq_true] at hs
      simp only [hs, Bool.false_eq_true, if_false, ih]

end XCli
